import Mathlib

/-!
Shallow embedding of `rs/artifact_pool/src/ingress_pool.rs` (the ingress
message pool of a consensus node) and proofs of its specified properties.

Machine integers (`usize`, time in nanoseconds) are modelled as `Nat`;
all arithmetic in the embedded code stays within bounds on the states the
theorems quantify over (the byte-accounting invariant is itself one of the
proved properties), so no wrap-around modelling is needed.  `BTreeMap` is
modelled as an association list strictly sorted by key; the sortedness is
carried as an explicit well-formedness hypothesis where a theorem needs it.
Rust panics (`unreachable!`) are modelled by `Option`: a panicking call
returns `none`.
-/

/-- Time in nanoseconds since epoch (`ic_types::Time`). -/
abbrev Time := Nat

/-- Node identifier (`ic_types::NodeId`), abstracted to a number. -/
abbrev NodeId := Nat

/-- Length in bytes of a message id hash (`EXPECTED_MESSAGE_ID_LENGTH`). -/
def EXPECTED_MESSAGE_ID_LENGTH : Nat := 32

/-- The largest possible content-hash value: the all-`0xff` byte string of
length `EXPECTED_MESSAGE_ID_LENGTH`, read as a number.  The all-zero byte
string is the number `0`. -/
def maxMessageIdHash : Nat := 2 ^ (8 * EXPECTED_MESSAGE_ID_LENGTH) - 1

/-- Composite key of the pool maps (`ic_types::artifact::IngressMessageId`):
the message expiry time together with the content hash (`MessageId`),
ordered lexicographically with the expiry as the major component. -/
structure IngressMessageId where
  expiry : Time
  hash : Nat
deriving DecidableEq, Repr

/-- Strict lexicographic order on `IngressMessageId`: expiry first, then
content hash (the derived `Ord` of the Rust type). -/
def keyLt (a b : IngressMessageId) : Prop :=
  a.expiry < b.expiry ∨ (a.expiry = b.expiry ∧ a.hash < b.hash)

instance (a b : IngressMessageId) : Decidable (keyLt a b) := by
  unfold keyLt; infer_instance

/-- Reflexive closure of `keyLt`, the order used by inclusive range scans. -/
def keyLe (a b : IngressMessageId) : Prop := keyLt a b ∨ a = b

instance (a b : IngressMessageId) : Decidable (keyLe a b) := by
  unfold keyLe; infer_instance

/-- A signed ingress message (`ic_types::messages::SignedIngress`),
abstracted to the fields the pool reads: the expiry time carried in the
message, the content hash, a nonce distinguishing message bodies, and the
serialized byte count returned by `count_bytes()`. -/
structure SignedIngress where
  expiryTime : Time
  messageId : Nat
  nonce : Nat
  byteSize : Nat
deriving DecidableEq, Repr

/-- The `IngressMessageId` derived from a signed ingress message
(`IngressMessageId::from(&SignedIngress)`). -/
def IngressMessageId.ofSigned (m : SignedIngress) : IngressMessageId :=
  ⟨m.expiryTime, m.messageId⟩

/-- An ingress message plus derived metadata
(`ic_interfaces::ingress_pool::IngressPoolObject`): the message, the
memoized content hash and the memoized byte size. -/
structure IngressPoolObject where
  signed_ingress : SignedIngress
  message_id : Nat
  byte_size : Nat
deriving DecidableEq, Repr

/-- Construction of an `IngressPoolObject` from a signed ingress message
(`IngressPoolObject::from(SignedIngress)`): the hash and byte size are
memoized from the message. -/
def IngressPoolObject.ofSigned (m : SignedIngress) : IngressPoolObject :=
  ⟨m, m.messageId, m.byteSize⟩

/-- The `IngressMessageId` of a pool object
(`IngressMessageId::from(&IngressPoolObject)`). -/
def IngressMessageId.ofObject (o : IngressPoolObject) : IngressMessageId :=
  ⟨o.signed_ingress.expiryTime, o.message_id⟩

/-- An artifact of the unvalidated section
(`ic_interfaces::ingress_pool::UnvalidatedIngressArtifact`). -/
structure UnvalidatedIngressArtifact where
  message : IngressPoolObject
  peer_id : NodeId
  timestamp : Time
deriving DecidableEq, Repr

/-- An artifact of the validated section
(`ic_interfaces::ingress_pool::ValidatedIngressArtifact`). -/
structure ValidatedIngressArtifact where
  msg : IngressPoolObject
  timestamp : Time
deriving DecidableEq, Repr

/-- The `AsRef<IngressPoolObject>` bound of the Rust section: any artifact
type exposes its underlying `IngressPoolObject`. -/
class AsIngressPoolObject (T : Type) where
  asRef : T → IngressPoolObject

instance : AsIngressPoolObject UnvalidatedIngressArtifact := ⟨fun a => a.message⟩

instance : AsIngressPoolObject ValidatedIngressArtifact := ⟨fun a => a.msg⟩

/-- The `HasTimestamp` bound: any artifact exposes its insertion time. -/
class HasTimestamp (T : Type) where
  timestamp : T → Time

instance : HasTimestamp UnvalidatedIngressArtifact := ⟨fun a => a.timestamp⟩

instance : HasTimestamp ValidatedIngressArtifact := ⟨fun a => a.timestamp⟩

/-- Byte size of an artifact: `artifact.as_ref().count_bytes()`, which reads
the memoized `byte_size` of the underlying pool object. -/
def artifactBytes [AsIngressPoolObject T] (a : T) : Nat :=
  (AsIngressPoolObject.asRef a).byte_size

/-- Lookup in the association-list model of `BTreeMap`: the value at the
first occurrence of the key. -/
def mapLookup (k : IngressMessageId) : List (IngressMessageId × T) → Option T
  | [] => none
  | (k', v') :: rest => if k = k' then some v' else mapLookup k rest

/-- Insertion into the association-list model of `BTreeMap`: place the new
binding at its ordered position, replacing an existing binding of the same
key. -/
def mapInsert (k : IngressMessageId) (v : T) :
    List (IngressMessageId × T) → List (IngressMessageId × T)
  | [] => [(k, v)]
  | (k', v') :: rest =>
    if keyLt k k' then (k, v) :: (k', v') :: rest
    else if k = k' then (k, v) :: rest
    else (k', v') :: mapInsert k v rest

/-- Removal from the association-list model of `BTreeMap`: drop the first
binding of the key, if any. -/
def mapRemove (k : IngressMessageId) :
    List (IngressMessageId × T) → List (IngressMessageId × T)
  | [] => []
  | (k', v') :: rest => if k = k' then rest else (k', v') :: mapRemove k rest

/-- One section of the ingress pool (`IngressPoolSection<T>`): the ordered
artifact map together with the incrementally maintained cached byte total.
Metrics are not modelled (they carry no pool state). -/
structure IngressPoolSection (T : Type) where
  artifacts : List (IngressMessageId × T)
  byte_size : Nat
deriving DecidableEq, Repr

/-- The empty section (`IngressPoolSection::new`). -/
def IngressPoolSection.new (T : Type) : IngressPoolSection T := ⟨[], 0⟩

/-- Cached byte total of a section (`CountBytes::count_bytes`). -/
def IngressPoolSection.count_bytes (s : IngressPoolSection T) : Nat := s.byte_size

/-- Recount of the byte total by summation over the map
(`IngressPoolSection::count_bytes_slow`). -/
def IngressPoolSection.count_bytes_slow [AsIngressPoolObject T]
    (s : IngressPoolSection T) : Nat :=
  (s.artifacts.map (fun p => artifactBytes p.2)).sum

/-- Number of entries in a section (`PoolSection::size`). -/
def IngressPoolSection.size (s : IngressPoolSection T) : Nat := s.artifacts.length

/-- Section insertion (`IngressPoolSection::insert`): upsert into the map;
on replacement the previous entry's bytes are subtracted before the new
entry's bytes are added. -/
def IngressPoolSection.insert [AsIngressPoolObject T] (s : IngressPoolSection T)
    (message_id : IngressMessageId) (artifact : T) : IngressPoolSection T :=
  let new_artifact_size := artifactBytes artifact
  match mapLookup message_id s.artifacts with
  | some previous =>
    { artifacts := mapInsert message_id artifact s.artifacts,
      byte_size := s.byte_size - artifactBytes previous + new_artifact_size }
  | none =>
    { artifacts := mapInsert message_id artifact s.artifacts,
      byte_size := s.byte_size + new_artifact_size }

/-- Section removal (`IngressPoolSection::remove`): returns the removed
artifact, if any, and the updated section with its bytes subtracted. -/
def IngressPoolSection.remove [AsIngressPoolObject T] (s : IngressPoolSection T)
    (message_id : IngressMessageId) : Option T × IngressPoolSection T :=
  match mapLookup message_id s.artifacts with
  | some artifact =>
    (some artifact,
     { artifacts := mapRemove message_id s.artifacts,
       byte_size := s.byte_size - artifactBytes artifact })
  | none => (none, s)

/-- Membership test (`IngressPoolSection::exists`). -/
def IngressPoolSection.existsId (s : IngressPoolSection T)
    (message_id : IngressMessageId) : Bool :=
  (mapLookup message_id s.artifacts).isSome

/-- The synthetic split key used by `purge_below`: the given expiry paired
with the all-zero hash. -/
def purgeKey (expiry : Time) : IngressMessageId := ⟨expiry, 0⟩

/-- Prefix purge (`IngressPoolSection::purge_below`): split the ordered map
at the key `(expiry, 0…0)`, keep the upper part, and return the removed
lower part (as the `(key, value)` entries, in map order) next to the updated
section; each removed entry's bytes are subtracted in turn from the cached
total. -/
def IngressPoolSection.purge_below [AsIngressPoolObject T]
    (s : IngressPoolSection T) (expiry : Time) :
    List (IngressMessageId × T) × IngressPoolSection T :=
  let key := purgeKey expiry
  let to_remove := s.artifacts.takeWhile (fun p => decide (keyLt p.1 key))
  let kept := s.artifacts.dropWhile (fun p => decide (keyLt p.1 key))
  (to_remove,
   { artifacts := kept,
     byte_size := to_remove.foldl (fun b p => b - artifactBytes p.2) s.byte_size })

/-- Point query (`PoolSection::get`). -/
def IngressPoolSection.get (s : IngressPoolSection T)
    (message_id : IngressMessageId) : Option T :=
  mapLookup message_id s.artifacts

/-- Timestamp query (`PoolSection::get_timestamp`). -/
def IngressPoolSection.get_timestamp [HasTimestamp T] (s : IngressPoolSection T)
    (message_id : IngressMessageId) : Option Time :=
  (s.get message_id).map HasTimestamp.timestamp

/-- Inclusive range scan (`PoolSection::get_all_by_expiry_range`): entries
between the synthetic keys `(lo, 0…0)` and `(hi, ff…ff)` inclusive, in map
order; an inverted range yields nothing. -/
def IngressPoolSection.get_all_by_expiry_range (s : IngressPoolSection T)
    (lo hi : Time) : List T :=
  if hi < lo then []
  else
    let loKey : IngressMessageId := ⟨lo, 0⟩
    let hiKey : IngressMessageId := ⟨hi, maxMessageIdHash⟩
    (s.artifacts.filter
      (fun p => decide (keyLe loKey p.1) && decide (keyLe p.1 hiKey))).map Prod.snd

/-- The ingress pool (`IngressPoolImpl`): the validated and unvalidated
sections plus the configured quota caps and node id.  Metrics and the logger
carry no pool state and are not modelled. -/
structure IngressPoolImpl where
  validated : IngressPoolSection ValidatedIngressArtifact
  unvalidated : IngressPoolSection UnvalidatedIngressArtifact
  ingress_pool_max_count : Nat
  ingress_pool_max_bytes : Nat
  node_id : NodeId
deriving DecidableEq, Repr

/-- The argument of `MutablePool::insert`
(`ic_interfaces::artifact_pool::UnvalidatedArtifact<SignedIngress>`). -/
structure UnvalidatedArtifact where
  message : SignedIngress
  peer_id : NodeId
  timestamp : Time
deriving DecidableEq, Repr

/-- Pool insertion (`MutablePool::insert`): wrap the message into an
`UnvalidatedIngressArtifact` and insert it into the unvalidated section
under its derived id. -/
def IngressPoolImpl.insert (pool : IngressPoolImpl)
    (artifact : UnvalidatedArtifact) : IngressPoolImpl :=
  let ingress_pool_obj := IngressPoolObject.ofSigned artifact.message
  { pool with
    unvalidated := pool.unvalidated.insert (IngressMessageId.ofObject ingress_pool_obj)
      ⟨ingress_pool_obj, artifact.peer_id, artifact.timestamp⟩ }

/-- Pool removal (`MutablePool::remove`): remove the id from the
unvalidated section only. -/
def IngressPoolImpl.remove (pool : IngressPoolImpl)
    (id : IngressMessageId) : IngressPoolImpl :=
  { pool with unvalidated := (pool.unvalidated.remove id).2 }

/-- Removal from the unvalidated section returning the removed artifact and
its byte size (`IngressPoolImpl::remove_unvalidated`). -/
def IngressPoolImpl.remove_unvalidated (pool : IngressPoolImpl)
    (message_id : IngressMessageId) :
    Option (UnvalidatedIngressArtifact × Nat) × IngressPoolImpl :=
  match pool.unvalidated.remove message_id with
  | (some unvalidated_artifact, s') =>
    (some (unvalidated_artifact, unvalidated_artifact.message.signed_ingress.byteSize),
     { pool with unvalidated := s' })
  | (none, s') => (none, { pool with unvalidated := s' })

/-- An advert announcing a validated artifact
(`ic_types::artifact::Advert`, with the unit attribute dropped). -/
structure Advert where
  size : Nat
  id : IngressMessageId
  integrity_hash : Nat
deriving DecidableEq, Repr

/-- A change action of the ingress pool
(`ic_interfaces::ingress_pool::ChangeAction`); the unit attribute of
`MoveToValidated` is dropped. -/
inductive ChangeAction where
  | MoveToValidated (message_id : IngressMessageId) (source_node_id : NodeId)
      (size : Nat) (integrity_hash : Nat)
  | RemoveFromUnvalidated (message_id : IngressMessageId)
  | RemoveFromValidated (message_id : IngressMessageId)
  | PurgeBelowExpiry (expiry : Time)
deriving DecidableEq, Repr

/-- A change set: an ordered sequence of change actions. -/
abbrev ChangeSet := List ChangeAction

/-- The result of `MutablePool::apply_changes`
(`ic_interfaces::artifact_pool::ChangeResult`). -/
structure ChangeResult where
  purged : List IngressMessageId
  adverts : List Advert
  changed : Bool
deriving DecidableEq, Repr

/-- One step of `apply_changes`: execute a single change action on the pool,
extending the advert and purged accumulators.  The `unreachable!` panic on a
`MoveToValidated` whose id is absent from the unvalidated section is
modelled by `none`; note that in the source the advert (when due) is pushed
before the panic, but the panic discards the whole call, so no partial state
escapes. -/
def applyChangeAction (pool : IngressPoolImpl) (adverts : List Advert)
    (purged : List IngressMessageId) :
    ChangeAction → Option (IngressPoolImpl × List Advert × List IngressMessageId)
  | .MoveToValidated message_id source_node_id size integrity_hash =>
    let adverts :=
      if source_node_id = pool.node_id then
        adverts ++ [⟨size, message_id, integrity_hash⟩]
      else adverts
    match pool.remove_unvalidated message_id with
    | (some (unvalidated_artifact, _), pool') =>
      some ({ pool' with
              validated := pool'.validated.insert message_id
                ⟨unvalidated_artifact.message, unvalidated_artifact.timestamp⟩ },
            adverts, purged)
    | (none, _) => none
  | .RemoveFromUnvalidated message_id =>
    some ((pool.remove_unvalidated message_id).2, adverts, purged)
  | .RemoveFromValidated message_id =>
    match pool.validated.remove message_id with
    | (some _, v') => some ({ pool with validated := v' }, adverts, purged ++ [message_id])
    | (none, _) => some (pool, adverts, purged)
  | .PurgeBelowExpiry expiry =>
    let rv := pool.validated.purge_below expiry
    let ru := pool.unvalidated.purge_below expiry
    some ({ pool with validated := rv.2, unvalidated := ru.2 },
          adverts,
          purged ++ rv.1.map (fun p => IngressMessageId.ofSigned p.2.msg.signed_ingress))

/-- The action loop of `apply_changes`, threading the pool and the advert
and purged accumulators through the change set in order. -/
def applyLoop (pool : IngressPoolImpl) (adverts : List Advert)
    (purged : List IngressMessageId) :
    ChangeSet → Option (IngressPoolImpl × List Advert × List IngressMessageId)
  | [] => some (pool, adverts, purged)
  | a :: rest =>
    match applyChangeAction pool adverts purged a with
    | some (pool', adverts', purged') => applyLoop pool' adverts' purged' rest
    | none => none

/-- Change-set application (`MutablePool::apply_changes`): run the actions
in order and report the accumulated purged ids and adverts; `changed` is
true iff the change set was non-empty. -/
def IngressPoolImpl.apply_changes (pool : IngressPoolImpl)
    (change_set : ChangeSet) : Option (ChangeResult × IngressPoolImpl) :=
  match applyLoop pool [] [] change_set with
  | some (pool', adverts, purged) =>
    some ({ purged := purged, adverts := adverts, changed := !change_set.isEmpty }, pool')
  | none => none

/-- The selector verdict (`ic_interfaces::ingress_pool::SelectResult`). -/
inductive SelectResult where
  | Selected (msg : SignedIngress)
  | Skip
  | Abort
deriving DecidableEq, Repr

/-- The validated artifacts of the pool whose key lies in the inclusive
expiry range, re-sorted by insertion timestamp
(`artifacts.sort_unstable_by_key(|artifact| artifact.timestamp)` in
`select_validated`). -/
def IngressPoolImpl.sortedRangeArtifacts (pool : IngressPoolImpl)
    (lo hi : Time) : List ValidatedIngressArtifact :=
  (pool.validated.get_all_by_expiry_range lo hi).mergeSort
    (fun a b => a.timestamp ≤ b.timestamp)

/-- The selection loop of `select_validated` over the sorted artifacts.  The
`FnMut` selector closure is modelled by explicit state passing
(`f : σ → IngressPoolObject → σ × SelectResult`).  Besides the collected
messages the loop also returns, as instrumentation, the list of pool
objects actually passed to the selector, and the selector's final state. -/
def selectLoop (f : σ → IngressPoolObject → σ × SelectResult) (s : σ) :
    List ValidatedIngressArtifact →
    List SignedIngress × List IngressPoolObject × σ
  | [] => ([], [], s)
  | artifact :: rest =>
    match f s artifact.msg with
    | (s', .Selected msg) =>
      let r := selectLoop f s' rest
      (msg :: r.1, artifact.msg :: r.2.1, r.2.2)
    | (s', .Skip) =>
      let r := selectLoop f s' rest
      (r.1, artifact.msg :: r.2.1, r.2.2)
    | (s', .Abort) => ([], [artifact.msg], s')

/-- Consensus-facing selection (`IngressPoolSelect::select_validated`):
collect the validated artifacts in the expiry range, re-sort them by
insertion timestamp, and run the selector over them, accumulating the
selected messages until exhaustion or `Abort`. -/
def IngressPoolImpl.select_validated (pool : IngressPoolImpl) (lo hi : Time)
    (f : σ → IngressPoolObject → σ × SelectResult) (s : σ) :
    List SignedIngress :=
  (selectLoop f s (pool.sortedRangeArtifacts lo hi)).1

/-- Throttling test (`IngressPoolThrottler::exceeds_threshold`): true iff
the combined entry count reaches `ingress_pool_max_count` or the combined
cached byte total reaches `ingress_pool_max_bytes`. -/
def IngressPoolImpl.exceeds_threshold (pool : IngressPoolImpl) : Bool :=
  let ingress_count := pool.validated.size + pool.unvalidated.size
  let ingress_bytes := pool.validated.count_bytes + pool.unvalidated.count_bytes
  decide (pool.ingress_pool_max_count ≤ ingress_count) ||
    decide (pool.ingress_pool_max_bytes ≤ ingress_bytes)

/-- Gossip priority verdict (`ic_types::artifact::Priority`); the pool only
produces `Later` and `Drop`. -/
inductive Priority where
  | Fetch
  | Later
  | Drop
deriving DecidableEq, Repr

/-- Modelled from the spec: `MAX_INGRESS_TTL` comes from the `ic_constants`
crate, which is not part of this repository; the spec fixes no value (five
minutes in the deployed system) and no claim depends on it. -/
def MAX_INGRESS_TTL : Nat := 5 * 60 * 1000000000

/-- The closure returned by `IngressPrioritizer::get_priority_function`,
reified as data: either the frozen drop-everything closure produced when the
pool exceeded its threshold, or the expiry-checking closure that reads the
time source anew at each call. -/
inductive PriorityClosure where
  | dropAll
  | checkExpiry
deriving DecidableEq, Repr

/-- Production of the priority function
(`IngressPrioritizer::get_priority_function`): the throttling test is made
once, at production time. -/
def get_priority_function (pool : IngressPoolImpl) : PriorityClosure :=
  if pool.exceeds_threshold then .dropAll else .checkExpiry

/-- A call of the produced priority closure on an ingress id; `start` is the
value the time source returns at call time
(`time_source.get_relative_time()` inside the closure). -/
def PriorityClosure.call : PriorityClosure → IngressMessageId → Time → Priority
  | .dropAll, _, _ => .Drop
  | .checkExpiry, ingress_id, start =>
    if start ≤ ingress_id.expiry ∧ ingress_id.expiry ≤ start + MAX_INGRESS_TTL then
      .Later
    else .Drop


/-! Part Well-formedness of the map model and basic order lemmas -/

/-- Well-formedness of the `BTreeMap` model: the entries are strictly
sorted by key (hence keys are unique). -/
def MapSorted (l : List (IngressMessageId × T)) : Prop :=
  l.Pairwise (fun p q => keyLt p.1 q.1)

instance (l : List (IngressMessageId × T)) : Decidable (MapSorted l) := by
  unfold MapSorted; infer_instance

/-- Byte total of a list of map entries. -/
def entriesBytes [AsIngressPoolObject T] (l : List (IngressMessageId × T)) : Nat :=
  (l.map (fun p => artifactBytes p.2)).sum

/-- The invariant every reachable section satisfies: the map is strictly
sorted and the cached byte total equals the recounted one. -/
def SectionInv [AsIngressPoolObject T] (s : IngressPoolSection T) : Prop :=
  MapSorted s.artifacts ∧ s.byte_size = s.count_bytes_slow

/-- One primitive mutation of a pool section, for stating the byte
accounting invariant over arbitrary operation sequences. -/
inductive SectionOp (T : Type) where
  | insertOp (message_id : IngressMessageId) (artifact : T)
  | removeOp (message_id : IngressMessageId)
  | purgeBelowOp (expiry : Time)

/-- Apply one `SectionOp` to a section. -/
def applySectionOp [AsIngressPoolObject T] (s : IngressPoolSection T) :
    SectionOp T → IngressPoolSection T
  | .insertOp message_id artifact => s.insert message_id artifact
  | .removeOp message_id => (s.remove message_id).2
  | .purgeBelowOp expiry => (s.purge_below expiry).2

/-- Apply a sequence of `SectionOp`s in order. -/
def runSectionOps [AsIngressPoolObject T] (s : IngressPoolSection T)
    (ops : List (SectionOp T)) : IngressPoolSection T :=
  ops.foldl applySectionOp s

/-- A concrete signed ingress message used by the witnesses. -/
def exMsg (nonce expiry sz : Nat) : SignedIngress := ⟨expiry, 1000 + nonce, nonce, sz⟩

/-- A concrete validated artifact used by the witnesses. -/
def exVal (nonce ts expiry sz : Nat) : ValidatedIngressArtifact :=
  ⟨IngressPoolObject.ofSigned (exMsg nonce expiry sz), ts⟩

/-- A concrete unvalidated artifact used by the witnesses. -/
def exUnv (nonce ts expiry sz : Nat) : UnvalidatedIngressArtifact :=
  ⟨IngressPoolObject.ofSigned (exMsg nonce expiry sz), 3, ts⟩

/-- A concrete sorted two-entry validated section used by the witnesses. -/
def exSec2 : IngressPoolSection ValidatedIngressArtifact :=
  ⟨[(⟨1, 1001⟩, exVal 1 9 1 10), (⟨3, 1002⟩, exVal 2 8 3 20)], 30⟩

/-- A concrete pool with one unvalidated message, used by the witnesses. -/
def exPool3 : IngressPoolImpl :=
  { validated := IngressPoolSection.new _,
    unvalidated := ⟨[(⟨50, 1001⟩, exUnv 1 0 50 10)], 10⟩,
    ingress_pool_max_count := 100,
    ingress_pool_max_bytes := 100000,
    node_id := 7 }

/-- The adverts a change set gives rise to on a pool whose node id is `n`:
one advert per `MoveToValidated` action whose source node is `n`. -/
def advertsOfChangeSet (n : NodeId) (cs : ChangeSet) : List Advert :=
  cs.filterMap fun a =>
    match a with
    | .MoveToValidated message_id source_node_id size integrity_hash =>
      if source_node_id = n then some ⟨size, message_id, integrity_hash⟩ else none
    | _ => none

/-- The change result produced on `exPool3` by promoting its one message,
used by the witnesses. -/
def exRes4 : ChangeResult :=
  { purged := [], adverts := [⟨0, ⟨50, 1001⟩, 99⟩], changed := true }

/-- The pool state after promoting the one message of `exPool3`, used by
the witnesses. -/
def exPool4 : IngressPoolImpl :=
  { validated := ⟨[(⟨50, 1001⟩, ⟨(exUnv 1 0 50 10).message, 0⟩)], 10⟩,
    unvalidated := ⟨[], 0⟩,
    ingress_pool_max_count := 100,
    ingress_pool_max_bytes := 100000,
    node_id := 7 }

/-- The selector that selects every message (the spec's `always_select`). -/
def alwaysSelect : Unit → IngressPoolObject → Unit × SelectResult :=
  fun _ o => ((), .Selected o.signed_ingress)

/-- A concrete pool whose validated section holds seven messages with
adversarially mixed timestamps and expiries, used by the witnesses. -/
def exPool5 : IngressPoolImpl :=
  { validated := ⟨[
      (⟨0, 1006⟩, exVal 6 6 0 10),
      (⟨10, 1003⟩, exVal 3 5 10 10),
      (⟨20, 1004⟩, exVal 4 4 20 10),
      (⟨30, 1000⟩, exVal 0 1 30 10),
      (⟨40, 1001⟩, exVal 1 3 40 10),
      (⟨50, 1002⟩, exVal 2 2 50 10),
      (⟨60, 1005⟩, exVal 5 6 60 10)], 70⟩,
    unvalidated := ⟨[], 0⟩,
    ingress_pool_max_count := 100,
    ingress_pool_max_bytes := 100000,
    node_id := 7 }

/-- The selector state reached after threading the selector through a list
of artifacts. -/
def threadState (f : σ → IngressPoolObject → σ × SelectResult) :
    σ → List ValidatedIngressArtifact → σ
  | s, [] => s
  | s, a :: rest => threadState f (f s a.msg).1 rest

/-- Whether the selector, threaded from the given state through the given
artifacts, never answers `Abort`. -/
def noAbortThread (f : σ → IngressPoolObject → σ × SelectResult) :
    σ → List ValidatedIngressArtifact → Bool
  | _, [] => true
  | s, a :: rest =>
    decide ((f s a.msg).2 ≠ SelectResult.Abort) &&
      noAbortThread f (f s a.msg).1 rest

/-- The messages the selector answers `Selected` for while threaded through
the given artifacts, in visit order. -/
def collectedSel (f : σ → IngressPoolObject → σ × SelectResult) :
    σ → List ValidatedIngressArtifact → List SignedIngress
  | _, [] => []
  | s, a :: rest =>
    match (f s a.msg).2 with
    | .Selected msg => msg :: collectedSel f (f s a.msg).1 rest
    | _ => collectedSel f (f s a.msg).1 rest

/-- A concrete stateful selector used by the witnesses: selects the first
visited artifact, skips the second, aborts on the third. -/
def exSel6 : Nat → IngressPoolObject → Nat × SelectResult :=
  fun c o =>
    (c + 1,
     if c = 1 then SelectResult.Skip
     else if c = 2 then SelectResult.Abort
     else SelectResult.Selected o.signed_ingress)

/-- A concrete pool configured with zero caps: it exceeds its threshold
even while completely empty (drained), used by the witnesses. -/
def exPoolFull : IngressPoolImpl :=
  { validated := IngressPoolSection.new _,
    unvalidated := IngressPoolSection.new _,
    ingress_pool_max_count := 0,
    ingress_pool_max_bytes := 0,
    node_id := 7 }

theorem keyLt_irrefl (a : IngressMessageId) : ¬ keyLt a a := by
  simp [keyLt]

theorem keyLt_trans {a b c : IngressMessageId} (h1 : keyLt a b) (h2 : keyLt b c) :
    keyLt a c := by
  rcases h1 with h1 | ⟨h1e, h1h⟩ <;> rcases h2 with h2 | ⟨h2e, h2h⟩
  · exact Or.inl (Nat.lt_trans h1 h2)
  · exact Or.inl (h2e ▸ h1)
  · exact Or.inl (h1e ▸ h2)
  · exact Or.inr ⟨h1e.trans h2e, Nat.lt_trans h1h h2h⟩

theorem keyLt_connex {a b : IngressMessageId} (h1 : ¬ keyLt a b) (h2 : a ≠ b) :
    keyLt b a := by
  rcases Nat.lt_trichotomy b.expiry a.expiry with h | h | h
  · exact Or.inl h
  · refine Or.inr ⟨h, ?_⟩
    have hab : ¬ a.hash < b.hash := fun hh => h1 (Or.inr ⟨h.symm, hh⟩)
    have hne : b.hash ≠ a.hash := fun hh => h2 (by cases a; cases b; simp_all)
    exact Nat.lt_of_le_of_ne (Nat.le_of_not_lt hab) hne
  · exact absurd (Or.inl h) h1

theorem keyLt_purgeKey (p : IngressMessageId) (c : Time) :
    keyLt p (purgeKey c) ↔ p.expiry < c := by
  simp [keyLt, purgeKey]

/-! Part Lemmas about the association-list map operations -/

theorem mapLookup_cons (k k' : IngressMessageId) (v' : T) (tl) :
    mapLookup k ((k', v') :: tl) = if k = k' then some v' else mapLookup k tl :=
  rfl

theorem mapInsert_cons (k : IngressMessageId) (v : T) (k' v' tl) :
    mapInsert k v ((k', v') :: tl) =
      if keyLt k k' then (k, v) :: (k', v') :: tl
      else if k = k' then (k, v) :: tl
      else (k', v') :: mapInsert k v tl :=
  rfl

theorem mapRemove_cons (k k' : IngressMessageId) (v' : T) (tl) :
    mapRemove k ((k', v') :: tl) =
      if k = k' then tl else (k', v') :: mapRemove k tl :=
  rfl

theorem mapLookup_eq_none_iff (k : IngressMessageId)
    (l : List (IngressMessageId × T)) :
    mapLookup k l = none ↔ ∀ p ∈ l, p.1 ≠ k := by
  induction l with
  | nil => simp [mapLookup]
  | cons hd tl ih =>
    obtain ⟨k', v'⟩ := hd
    by_cases h : k = k' <;> simp [mapLookup_cons, h, ih]
    exact fun _ => (fun he => h he.symm)

theorem mapLookup_mem {k : IngressMessageId} {l : List (IngressMessageId × T)}
    {v : T} (h : mapLookup k l = some v) : (k, v) ∈ l := by
  induction l with
  | nil => simp [mapLookup] at h
  | cons hd tl ih =>
    obtain ⟨k', v'⟩ := hd
    by_cases hk : k = k'
    · rw [mapLookup_cons, if_pos hk] at h
      obtain rfl := hk
      obtain rfl : v' = v := Option.some.inj h
      exact List.mem_cons_self _ _
    · rw [mapLookup_cons, if_neg hk] at h
      exact List.mem_cons_of_mem _ (ih h)

theorem mapInsert_mem {p : IngressMessageId × T} {k : IngressMessageId} {v : T}
    {l : List (IngressMessageId × T)} (h : p ∈ mapInsert k v l) :
    p = (k, v) ∨ p ∈ l := by
  induction l with
  | nil => simp [mapInsert] at h; simp [h]
  | cons hd tl ih =>
    obtain ⟨k', v'⟩ := hd
    by_cases h1 : keyLt k k'
    · rw [mapInsert_cons, if_pos h1] at h
      rcases List.mem_cons.mp h with h | h
      · simp [h]
      · simp [h]
    · by_cases h2 : k = k'
      · rw [mapInsert_cons, if_neg h1, if_pos h2] at h
        rcases List.mem_cons.mp h with h | h
        · simp [h]
        · simp [h]
      · rw [mapInsert_cons, if_neg h1, if_neg h2] at h
        rcases List.mem_cons.mp h with h | h
        · simp [h]
        · rcases ih h with h' | h'
          · simp [h']
          · simp [h']

theorem mapInsert_sorted {k : IngressMessageId} {v : T}
    {l : List (IngressMessageId × T)} (hs : MapSorted l) :
    MapSorted (mapInsert k v l) := by
  induction l with
  | nil => simp [mapInsert, MapSorted]
  | cons hd tl ih =>
    obtain ⟨k', v'⟩ := hd
    rw [MapSorted, List.pairwise_cons] at hs
    obtain ⟨hhd, htl⟩ := hs
    by_cases h1 : keyLt k k'
    · rw [MapSorted, mapInsert_cons, if_pos h1]
      refine List.Pairwise.cons ?_ (List.Pairwise.cons hhd htl)
      intro q hq
      rcases List.mem_cons.mp hq with h | h
      · subst h; exact h1
      · exact keyLt_trans h1 (hhd q h)
    · by_cases h2 : k = k'
      · rw [MapSorted, mapInsert_cons, if_neg h1, if_pos h2]
        subst h2
        exact List.Pairwise.cons hhd htl
      · rw [MapSorted, mapInsert_cons, if_neg h1, if_neg h2]
        refine List.Pairwise.cons ?_ (ih htl)
        intro q hq
        rcases mapInsert_mem hq with h | h
        · subst h; exact keyLt_connex h1 h2
        · exact hhd q h

theorem mapLookup_mapInsert_self (k : IngressMessageId) (v : T)
    (l : List (IngressMessageId × T)) :
    mapLookup k (mapInsert k v l) = some v := by
  induction l with
  | nil => simp [mapInsert, mapLookup]
  | cons hd tl ih =>
    obtain ⟨k', v'⟩ := hd
    by_cases h1 : keyLt k k'
    · rw [mapInsert_cons, if_pos h1, mapLookup_cons, if_pos rfl]
    · by_cases h2 : k = k'
      · rw [mapInsert_cons, if_neg h1, if_pos h2, mapLookup_cons, if_pos rfl]
      · rw [mapInsert_cons, if_neg h1, if_neg h2, mapLookup_cons, if_neg h2]
        exact ih

theorem mapRemove_sublist (k : IngressMessageId)
    (l : List (IngressMessageId × T)) : (mapRemove k l).Sublist l := by
  induction l with
  | nil => simp [mapRemove]
  | cons hd tl ih =>
    obtain ⟨k', v'⟩ := hd
    by_cases h : k = k'
    · rw [mapRemove_cons, if_pos h]
      exact List.sublist_cons_self _ _
    · rw [mapRemove_cons, if_neg h]
      exact List.Sublist.cons₂ _ ih

theorem mapRemove_sorted {k : IngressMessageId}
    {l : List (IngressMessageId × T)} (hs : MapSorted l) :
    MapSorted (mapRemove k l) :=
  List.Pairwise.sublist (mapRemove_sublist k l) hs

theorem mapLookup_sublist {k : IngressMessageId}
    {l1 l2 : List (IngressMessageId × T)} (hsub : l1.Sublist l2)
    (h : mapLookup k l2 = none) : mapLookup k l1 = none := by
  rw [mapLookup_eq_none_iff] at h ⊢
  exact fun p hp => h p (hsub.subset hp)

theorem mapLookup_mapRemove_self {k : IngressMessageId}
    {l : List (IngressMessageId × T)} (hs : MapSorted l) :
    mapLookup k (mapRemove k l) = none := by
  induction l with
  | nil => simp [mapRemove, mapLookup]
  | cons hd tl ih =>
    obtain ⟨k', v'⟩ := hd
    rw [MapSorted, List.pairwise_cons] at hs
    obtain ⟨hhd, htl⟩ := hs
    by_cases h : k = k'
    · rw [mapRemove_cons, if_pos h]
      subst h
      rw [mapLookup_eq_none_iff]
      intro p hp he
      exact keyLt_irrefl p.1 (he ▸ hhd p hp)
    · rw [mapRemove_cons, if_neg h, mapLookup_cons, if_neg h]
      exact ih htl

/-! Part Byte accounting over the map model -/

theorem entriesBytes_nil [AsIngressPoolObject T] :
    entriesBytes ([] : List (IngressMessageId × T)) = 0 := rfl

theorem entriesBytes_cons [AsIngressPoolObject T] (p : IngressMessageId × T)
    (l : List (IngressMessageId × T)) :
    entriesBytes (p :: l) = artifactBytes p.2 + entriesBytes l := by
  simp [entriesBytes]

theorem entriesBytes_cons_mk [AsIngressPoolObject T] (k : IngressMessageId)
    (v : T) (l : List (IngressMessageId × T)) :
    entriesBytes ((k, v) :: l) = artifactBytes v + entriesBytes l := by
  simp [entriesBytes]

theorem entriesBytes_append [AsIngressPoolObject T]
    (l1 l2 : List (IngressMessageId × T)) :
    entriesBytes (l1 ++ l2) = entriesBytes l1 + entriesBytes l2 := by
  simp [entriesBytes]

theorem mapRemove_bytes [AsIngressPoolObject T] {k : IngressMessageId}
    {l : List (IngressMessageId × T)} {a : T} (h : mapLookup k l = some a) :
    entriesBytes (mapRemove k l) + artifactBytes a = entriesBytes l := by
  induction l with
  | nil => simp [mapLookup] at h
  | cons hd tl ih =>
    obtain ⟨k', v'⟩ := hd
    by_cases hk : k = k'
    · rw [mapLookup_cons, if_pos hk] at h
      obtain rfl : v' = a := Option.some.inj h
      rw [mapRemove_cons, if_pos hk, entriesBytes_cons_mk]
      omega
    · rw [mapLookup_cons, if_neg hk] at h
      rw [mapRemove_cons, if_neg hk, entriesBytes_cons_mk, entriesBytes_cons_mk]
      have := ih h
      omega

theorem mapLookup_bytes_le [AsIngressPoolObject T] {k : IngressMessageId}
    {l : List (IngressMessageId × T)} {a : T} (h : mapLookup k l = some a) :
    artifactBytes a ≤ entriesBytes l := by
  have := mapRemove_bytes h
  omega

theorem mapInsert_bytes_none [AsIngressPoolObject T] {k : IngressMessageId}
    {v : T} {l : List (IngressMessageId × T)} (h : mapLookup k l = none) :
    entriesBytes (mapInsert k v l) = entriesBytes l + artifactBytes v := by
  induction l with
  | nil => simp [mapInsert, entriesBytes]
  | cons hd tl ih =>
    obtain ⟨k', v'⟩ := hd
    rw [mapLookup_cons] at h
    by_cases hk : k = k'
    · rw [if_pos hk] at h; exact absurd h (by simp)
    · rw [if_neg hk] at h
      by_cases h1 : keyLt k k'
      · rw [mapInsert_cons, if_pos h1, entriesBytes_cons_mk,
          entriesBytes_cons_mk]
        omega
      · rw [mapInsert_cons, if_neg h1, if_neg hk, entriesBytes_cons_mk,
          entriesBytes_cons_mk]
        have := ih h
        omega

theorem mapInsert_bytes_some [AsIngressPoolObject T] {k : IngressMessageId}
    {v prev : T} {l : List (IngressMessageId × T)} (hs : MapSorted l)
    (h : mapLookup k l = some prev) :
    entriesBytes (mapInsert k v l) + artifactBytes prev =
      entriesBytes l + artifactBytes v := by
  induction l with
  | nil => simp [mapLookup] at h
  | cons hd tl ih =>
    obtain ⟨k', v'⟩ := hd
    rw [MapSorted, List.pairwise_cons] at hs
    obtain ⟨hhd, htl⟩ := hs
    rw [mapLookup_cons] at h
    by_cases hk : k = k'
    · rw [if_pos hk] at h
      obtain rfl : v' = prev := Option.some.inj h
      have h1 : ¬ keyLt k k' := fun hlt => keyLt_irrefl k' (hk ▸ hlt)
      rw [mapInsert_cons, if_neg h1, if_pos hk, entriesBytes_cons_mk,
        entriesBytes_cons_mk]
      omega
    · rw [if_neg hk] at h
      have h1 : ¬ keyLt k k' := by
        intro hlt
        have hmem := mapLookup_mem h
        exact keyLt_irrefl k (keyLt_trans hlt (hhd _ hmem))
      rw [mapInsert_cons, if_neg h1, if_neg hk, entriesBytes_cons_mk,
        entriesBytes_cons_mk]
      have := ih htl h
      omega

theorem foldl_sub_bytes [AsIngressPoolObject T]
    (l : List (IngressMessageId × T)) (b : Nat) (h : entriesBytes l ≤ b) :
    l.foldl (fun acc p => acc - artifactBytes p.2) b = b - entriesBytes l := by
  induction l generalizing b with
  | nil => simp [entriesBytes]
  | cons hd tl ih =>
    rw [entriesBytes_cons] at h
    rw [List.foldl_cons, ih (b - artifactBytes hd.2) (by omega),
      entriesBytes_cons]
    omega

theorem dropWhile_not_keyLt {key : IngressMessageId}
    {l : List (IngressMessageId × T)} (hs : MapSorted l) :
    ∀ p ∈ l.dropWhile (fun p => decide (keyLt p.1 key)), ¬ keyLt p.1 key := by
  induction l with
  | nil => simp
  | cons hd tl ih =>
    rw [MapSorted, List.pairwise_cons] at hs
    obtain ⟨hhd, htl⟩ := hs
    by_cases h : keyLt hd.1 key
    · rw [List.dropWhile_cons_of_pos (by simpa using h)]
      exact ih htl
    · rw [List.dropWhile_cons_of_neg (by simpa using h)]
      intro p hp
      rcases List.mem_cons.mp hp with hp | hp
      · exact hp ▸ h
      · exact fun hlt => h (keyLt_trans (hhd p hp) hlt)

/-! Part Reduction lemmas for the section operations -/

theorem count_bytes_slow_eq_entriesBytes [AsIngressPoolObject T]
    (s : IngressPoolSection T) : s.count_bytes_slow = entriesBytes s.artifacts :=
  rfl

theorem insert_eq_some [AsIngressPoolObject T] {s : IngressPoolSection T}
    {message_id : IngressMessageId} {artifact prev : T}
    (h : mapLookup message_id s.artifacts = some prev) :
    s.insert message_id artifact =
      ⟨mapInsert message_id artifact s.artifacts,
       s.byte_size - artifactBytes prev + artifactBytes artifact⟩ := by
  simp [IngressPoolSection.insert, h]

theorem insert_eq_none [AsIngressPoolObject T] {s : IngressPoolSection T}
    {message_id : IngressMessageId} {artifact : T}
    (h : mapLookup message_id s.artifacts = none) :
    s.insert message_id artifact =
      ⟨mapInsert message_id artifact s.artifacts,
       s.byte_size + artifactBytes artifact⟩ := by
  simp [IngressPoolSection.insert, h]

theorem remove_eq_some [AsIngressPoolObject T] {s : IngressPoolSection T}
    {message_id : IngressMessageId} {a : T}
    (h : mapLookup message_id s.artifacts = some a) :
    s.remove message_id =
      (some a,
       ⟨mapRemove message_id s.artifacts, s.byte_size - artifactBytes a⟩) := by
  simp [IngressPoolSection.remove, h]

theorem remove_eq_none [AsIngressPoolObject T] {s : IngressPoolSection T}
    {message_id : IngressMessageId}
    (h : mapLookup message_id s.artifacts = none) :
    s.remove message_id = (none, s) := by
  simp [IngressPoolSection.remove, h]

/-! Part The section invariant: sortedness and exact byte accounting -/

theorem sectionInv_new (T : Type) [AsIngressPoolObject T] :
    SectionInv (IngressPoolSection.new T) :=
  ⟨List.Pairwise.nil, rfl⟩

theorem sectionInv_insert [AsIngressPoolObject T] {s : IngressPoolSection T}
    (h : SectionInv s) (message_id : IngressMessageId) (artifact : T) :
    SectionInv (s.insert message_id artifact) := by
  obtain ⟨hs, hb⟩ := h
  rw [count_bytes_slow_eq_entriesBytes] at hb
  cases hl : mapLookup message_id s.artifacts with
  | some prev =>
    rw [insert_eq_some hl]
    refine ⟨mapInsert_sorted hs, ?_⟩
    rw [count_bytes_slow_eq_entriesBytes]
    have h1 := mapInsert_bytes_some (v := artifact) hs hl
    have h2 := mapLookup_bytes_le hl
    simp only
    omega
  | none =>
    rw [insert_eq_none hl]
    refine ⟨mapInsert_sorted hs, ?_⟩
    rw [count_bytes_slow_eq_entriesBytes]
    have h1 := mapInsert_bytes_none (v := artifact) hl
    simp only
    omega

theorem sectionInv_remove [AsIngressPoolObject T] {s : IngressPoolSection T}
    (h : SectionInv s) (message_id : IngressMessageId) :
    SectionInv (s.remove message_id).2 := by
  obtain ⟨hs, hb⟩ := h
  rw [count_bytes_slow_eq_entriesBytes] at hb
  cases hl : mapLookup message_id s.artifacts with
  | some a =>
    rw [remove_eq_some hl]
    refine ⟨mapRemove_sorted hs, ?_⟩
    rw [count_bytes_slow_eq_entriesBytes]
    have h1 := mapRemove_bytes hl
    simp only
    omega
  | none =>
    rw [remove_eq_none hl]
    exact ⟨hs, by rw [count_bytes_slow_eq_entriesBytes]; exact hb⟩

theorem sectionInv_purge_below [AsIngressPoolObject T] {s : IngressPoolSection T}
    (h : SectionInv s) (c : Time) : SectionInv (s.purge_below c).2 := by
  obtain ⟨hs, hb⟩ := h
  rw [count_bytes_slow_eq_entriesBytes] at hb
  constructor
  · exact List.Pairwise.sublist (List.dropWhile_sublist _) hs
  · rw [count_bytes_slow_eq_entriesBytes]
    show (List.takeWhile _ s.artifacts).foldl
        (fun b p => b - artifactBytes p.2) s.byte_size =
      entriesBytes (List.dropWhile _ s.artifacts)
    have hsplit :
        entriesBytes (List.takeWhile
            (fun p => decide (keyLt p.1 (purgeKey c))) s.artifacts) +
          entriesBytes (List.dropWhile
            (fun p => decide (keyLt p.1 (purgeKey c))) s.artifacts) =
          entriesBytes s.artifacts := by
      rw [← entriesBytes_append, List.takeWhile_append_dropWhile]
    rw [foldl_sub_bytes _ _ (by omega)]
    omega

/-! Part C1: operation sequences on a section -/

theorem sectionInv_applySectionOp [AsIngressPoolObject T]
    {s : IngressPoolSection T} (h : SectionInv s) (op : SectionOp T) :
    SectionInv (applySectionOp s op) := by
  cases op with
  | insertOp message_id artifact => exact sectionInv_insert h message_id artifact
  | removeOp message_id => exact sectionInv_remove h message_id
  | purgeBelowOp expiry => exact sectionInv_purge_below h expiry

theorem sectionInv_runSectionOps [AsIngressPoolObject T]
    {s : IngressPoolSection T} (h : SectionInv s) (ops : List (SectionOp T)) :
    SectionInv (runSectionOps s ops) := by
  induction ops generalizing s with
  | nil => exact h
  | cons op rest ih => exact ih (sectionInv_applySectionOp h op)

/-- C1: for every pool section (validated or unvalidated artifact type) and
every finite sequence of `insert`, `remove` and `purge_below` operations
starting from the empty section, the cached byte total returned by
`count_bytes` equals the sum of the stored artifacts' `byte_size`. -/
theorem byte_accounting_after_ops (T : Type) [AsIngressPoolObject T]
    (ops : List (SectionOp T)) :
    (runSectionOps (IngressPoolSection.new T) ops).count_bytes =
      (runSectionOps (IngressPoolSection.new T) ops).count_bytes_slow :=
  (sectionInv_runSectionOps (sectionInv_new T) ops).2

/-! Part C2: purge_below removes exactly the strict-prefix below the cutoff -/

theorem purge_below_fst [AsIngressPoolObject T] (s : IngressPoolSection T)
    (c : Time) :
    (s.purge_below c).1 =
      s.artifacts.takeWhile (fun p => decide (keyLt p.1 (purgeKey c))) :=
  rfl

theorem purge_below_snd_artifacts [AsIngressPoolObject T]
    (s : IngressPoolSection T) (c : Time) :
    ((s.purge_below c).2).artifacts =
      s.artifacts.dropWhile (fun p => decide (keyLt p.1 (purgeKey c))) :=
  rfl

/-- C2: for every sorted pool section and cutoff time, `purge_below`
removes and yields exactly the entries with expiry strictly below the
cutoff, yields them exactly once in ascending key order, and every entry
remaining afterwards has expiry at least the cutoff. -/
theorem purge_below_spec [AsIngressPoolObject T] (s : IngressPoolSection T)
    (c : Time) (hs : MapSorted s.artifacts) :
    (∀ p ∈ (s.purge_below c).1, p.1.expiry < c) ∧
    (∀ p ∈ ((s.purge_below c).2).artifacts, c ≤ p.1.expiry) ∧
    List.Pairwise (fun p q => keyLt p.1 q.1) (s.purge_below c).1 ∧
    (s.purge_below c).1 ++ ((s.purge_below c).2).artifacts = s.artifacts := by
  refine ⟨?_, ?_, ?_, ?_⟩
  · intro p hp
    rw [purge_below_fst] at hp
    have := List.mem_takeWhile_imp hp
    exact (keyLt_purgeKey p.1 c).mp (by simpa using this)
  · intro p hp
    rw [purge_below_snd_artifacts] at hp
    have := dropWhile_not_keyLt hs p hp
    exact Nat.le_of_not_lt (fun hlt => this ((keyLt_purgeKey p.1 c).mpr hlt))
  · rw [purge_below_fst]
    exact List.Pairwise.sublist (List.takeWhile_sublist _) hs
  · rw [purge_below_fst, purge_below_snd_artifacts]
    exact List.takeWhile_append_dropWhile _ _

theorem purge_below_spec_witness :
    MapSorted exSec2.artifacts ∧
    ((∀ p ∈ (exSec2.purge_below 2).1, p.1.expiry < 2) ∧
     (∀ p ∈ ((exSec2.purge_below 2).2).artifacts, 2 ≤ p.1.expiry) ∧
     List.Pairwise (fun p q => keyLt p.1 q.1) (exSec2.purge_below 2).1 ∧
     (exSec2.purge_below 2).1 ++ ((exSec2.purge_below 2).2).artifacts =
       exSec2.artifacts) :=
  ⟨by decide, purge_below_spec exSec2 2 (by decide)⟩

/-! Part C3: promotion to validated preserves the insertion timestamp -/

theorem insert_artifacts [AsIngressPoolObject T] (s : IngressPoolSection T)
    (message_id : IngressMessageId) (a : T) :
    (s.insert message_id a).artifacts = mapInsert message_id a s.artifacts := by
  cases hl : mapLookup message_id s.artifacts with
  | some prev => rw [insert_eq_some hl]
  | none => rw [insert_eq_none hl]

theorem get_timestamp_insert [AsIngressPoolObject T] [HasTimestamp T]
    (s : IngressPoolSection T) (message_id : IngressMessageId) (a : T) :
    (s.insert message_id a).get_timestamp message_id =
      some (HasTimestamp.timestamp a) := by
  simp [IngressPoolSection.get_timestamp, IngressPoolSection.get,
    insert_artifacts, mapLookup_mapInsert_self]

theorem get_timestamp_remove_self [AsIngressPoolObject T] [HasTimestamp T]
    {s : IngressPoolSection T} (hs : MapSorted s.artifacts)
    (message_id : IngressMessageId) :
    ((s.remove message_id).2).get_timestamp message_id = none := by
  cases hl : mapLookup message_id s.artifacts with
  | some a =>
    rw [remove_eq_some hl]
    simp [IngressPoolSection.get_timestamp, IngressPoolSection.get,
      mapLookup_mapRemove_self hs]
  | none =>
    rw [remove_eq_none hl]
    simp [IngressPoolSection.get_timestamp, IngressPoolSection.get, hl]

/-- C3: if `id` is present in the unvalidated section with timestamp `t`,
then applying a `MoveToValidated(id, …)` action succeeds, the validated
section afterwards holds `id` with timestamp exactly `t`, and the
unvalidated section no longer holds `id`. -/
theorem move_to_validated_preserves_timestamp (pool : IngressPoolImpl)
    (mid : IngressMessageId) (src : NodeId) (size ihash : Nat) (t : Time)
    (hu : MapSorted pool.unvalidated.artifacts)
    (ht : pool.unvalidated.get_timestamp mid = some t) :
    ∃ r pool1,
      pool.apply_changes [.MoveToValidated mid src size ihash] =
        some (r, pool1) ∧
      pool1.validated.get_timestamp mid = some t ∧
      pool1.unvalidated.get_timestamp mid = none := by
  cases hl : mapLookup mid pool.unvalidated.artifacts with
  | none =>
    rw [IngressPoolSection.get_timestamp, IngressPoolSection.get, hl] at ht
    simp at ht
  | some ua =>
    have hts : ua.timestamp = t := by
      rw [IngressPoolSection.get_timestamp, IngressPoolSection.get, hl] at ht
      simpa [HasTimestamp.timestamp] using ht
    subst hts
    simp only [IngressPoolImpl.apply_changes, applyLoop, applyChangeAction,
      IngressPoolImpl.remove_unvalidated, remove_eq_some hl]
    refine ⟨_, _, rfl, ?_, ?_⟩
    · exact get_timestamp_insert pool.validated mid ⟨ua.message, ua.timestamp⟩
    · have := get_timestamp_remove_self (s := pool.unvalidated) hu mid
      rwa [remove_eq_some hl] at this

theorem move_to_validated_preserves_timestamp_witness :
    MapSorted exPool3.unvalidated.artifacts ∧
    exPool3.unvalidated.get_timestamp ⟨50, 1001⟩ = some 0 ∧
    ∃ r pool1,
      exPool3.apply_changes [.MoveToValidated ⟨50, 1001⟩ 7 0 99] =
        some (r, pool1) ∧
      pool1.validated.get_timestamp ⟨50, 1001⟩ = some 0 ∧
      pool1.unvalidated.get_timestamp ⟨50, 1001⟩ = none :=
  ⟨by decide, by decide,
    move_to_validated_preserves_timestamp exPool3 ⟨50, 1001⟩ 7 0 99 0
      (by decide) (by decide)⟩

/-! Part C4: adverts are emitted exactly for own-node MoveToValidated actions -/

theorem advertsOfChangeSet_cons (n : NodeId) (a : ChangeAction) (cs : ChangeSet) :
    advertsOfChangeSet n (a :: cs) =
      advertsOfChangeSet n [a] ++ advertsOfChangeSet n cs := by
  cases a with
  | MoveToValidated mid src size ihash =>
    by_cases hsrc : src = n <;> simp [advertsOfChangeSet, hsrc]
  | RemoveFromUnvalidated mid => simp [advertsOfChangeSet]
  | RemoveFromValidated mid => simp [advertsOfChangeSet]
  | PurgeBelowExpiry c => simp [advertsOfChangeSet]

theorem remove_unvalidated_snd (pool : IngressPoolImpl)
    (mid : IngressMessageId) :
    (pool.remove_unvalidated mid).2 =
      { pool with unvalidated := (pool.unvalidated.remove mid).2 } := by
  cases hl : mapLookup mid pool.unvalidated.artifacts with
  | some a =>
    rw [IngressPoolImpl.remove_unvalidated, remove_eq_some hl]
  | none =>
    rw [IngressPoolImpl.remove_unvalidated, remove_eq_none hl]

theorem section_remove_sublist [AsIngressPoolObject T]
    (s : IngressPoolSection T) (mid : IngressMessageId) :
    ((s.remove mid).2).artifacts.Sublist s.artifacts := by
  cases hl : mapLookup mid s.artifacts with
  | some a => rw [remove_eq_some hl]; exact mapRemove_sublist mid s.artifacts
  | none => rw [remove_eq_none hl]

theorem applyChangeAction_some_props {pool : IngressPoolImpl}
    {ad : List Advert} {pu : List IngressMessageId} {a : ChangeAction}
    {p' : IngressPoolImpl} {ad' : List Advert} {pu' : List IngressMessageId}
    (h : applyChangeAction pool ad pu a = some (p', ad', pu')) :
    ad' = ad ++ advertsOfChangeSet pool.node_id [a] ∧
    p'.node_id = pool.node_id ∧
    p'.unvalidated.artifacts.Sublist pool.unvalidated.artifacts := by
  cases a with
  | MoveToValidated mid src size ihash =>
    cases hl : mapLookup mid pool.unvalidated.artifacts with
    | none =>
      simp only [applyChangeAction, IngressPoolImpl.remove_unvalidated,
        remove_eq_none hl] at h
      exact Option.noConfusion h
    | some ua =>
      simp only [applyChangeAction, IngressPoolImpl.remove_unvalidated,
        remove_eq_some hl, Option.some.injEq, Prod.mk.injEq] at h
      obtain ⟨hp, had, hpu⟩ := h
      refine ⟨?_, ?_, ?_⟩
      · rw [← had]
        by_cases hsrc : src = pool.node_id <;> simp [advertsOfChangeSet, hsrc]
      · rw [← hp]
      · rw [← hp]
        exact mapRemove_sublist mid pool.unvalidated.artifacts
  | RemoveFromUnvalidated mid =>
    simp only [applyChangeAction, Option.some.injEq, Prod.mk.injEq] at h
    obtain ⟨hp, had, hpu⟩ := h
    refine ⟨?_, ?_, ?_⟩
    · rw [← had]; simp [advertsOfChangeSet]
    · rw [← hp, remove_unvalidated_snd]
    · rw [← hp, remove_unvalidated_snd]
      exact section_remove_sublist pool.unvalidated mid
  | RemoveFromValidated mid =>
    cases hl : mapLookup mid pool.validated.artifacts with
    | some a0 =>
      simp only [applyChangeAction, remove_eq_some hl, Option.some.injEq,
        Prod.mk.injEq] at h
      obtain ⟨hp, had, hpu⟩ := h
      refine ⟨?_, ?_, ?_⟩
      · rw [← had]; simp [advertsOfChangeSet]
      · rw [← hp]
      · rw [← hp]
    | none =>
      simp only [applyChangeAction, remove_eq_none hl, Option.some.injEq,
        Prod.mk.injEq] at h
      obtain ⟨hp, had, hpu⟩ := h
      refine ⟨?_, ?_, ?_⟩
      · rw [← had]; simp [advertsOfChangeSet]
      · rw [← hp]
      · rw [← hp]
  | PurgeBelowExpiry c =>
    simp only [applyChangeAction, Option.some.injEq, Prod.mk.injEq] at h
    obtain ⟨hp, had, hpu⟩ := h
    refine ⟨?_, ?_, ?_⟩
    · rw [← had]; simp [advertsOfChangeSet]
    · rw [← hp]
    · rw [← hp]
      exact List.dropWhile_sublist _

theorem applyLoop_adverts (cs : ChangeSet) :
    ∀ (pool : IngressPoolImpl) (ad : List Advert) (pu : List IngressMessageId)
      (p' : IngressPoolImpl) (ad' : List Advert) (pu' : List IngressMessageId),
      applyLoop pool ad pu cs = some (p', ad', pu') →
      ad' = ad ++ advertsOfChangeSet pool.node_id cs := by
  induction cs with
  | nil =>
    intro pool ad pu p' ad' pu' h
    simp only [applyLoop, Option.some.injEq, Prod.mk.injEq] at h
    obtain ⟨hp, had, hpu⟩ := h
    simp [advertsOfChangeSet, ← had]
  | cons a rest ih =>
    intro pool ad pu p' ad' pu' h
    simp only [applyLoop] at h
    cases hstep : applyChangeAction pool ad pu a with
    | none => rw [hstep] at h; exact Option.noConfusion h
    | some x =>
      obtain ⟨pool1, ad1, pu1⟩ := x
      rw [hstep] at h
      obtain ⟨had1, hnode, _⟩ := applyChangeAction_some_props hstep
      have h2 := ih pool1 ad1 pu1 p' ad' pu' h
      rw [h2, hnode, had1, List.append_assoc, ← advertsOfChangeSet_cons]

/-- C4: a change-set application that returns normally emits an advert for
`id` if and only if the change set holds a `MoveToValidated` action for `id`
whose source node is the pool's own node id. -/
theorem apply_changes_adverts_iff (pool : IngressPoolImpl) (cs : ChangeSet)
    (r : ChangeResult) (pool1 : IngressPoolImpl)
    (h : pool.apply_changes cs = some (r, pool1)) (mid : IngressMessageId) :
    (∃ ad ∈ r.adverts, ad.id = mid) ↔
      ∃ src size ihash,
        ChangeAction.MoveToValidated mid src size ihash ∈ cs ∧
        src = pool.node_id := by
  have hads : r.adverts = advertsOfChangeSet pool.node_id cs := by
    rw [IngressPoolImpl.apply_changes] at h
    cases hloop : applyLoop pool [] [] cs with
    | none => rw [hloop] at h; exact Option.noConfusion h
    | some x =>
      obtain ⟨p2, ad2, pu2⟩ := x
      rw [hloop] at h
      simp only [Option.some.injEq, Prod.mk.injEq] at h
      obtain ⟨hr, hp⟩ := h
      have h3 := applyLoop_adverts cs pool [] [] p2 ad2 pu2 hloop
      rw [← hr]
      simpa using h3
  rw [hads]
  constructor
  · rintro ⟨ad0, hmem, hid⟩
    rw [advertsOfChangeSet] at hmem
    obtain ⟨act, hact, hf⟩ := List.mem_filterMap.mp hmem
    cases act with
    | MoveToValidated mid2 src2 size2 ihash2 =>
      dsimp only at hf
      by_cases hsrc : src2 = pool.node_id
      · rw [if_pos hsrc] at hf
        obtain rfl := Option.some.inj hf
        obtain rfl : mid2 = mid := hid
        exact ⟨src2, size2, ihash2, hact, hsrc⟩
      · rw [if_neg hsrc] at hf
        exact Option.noConfusion hf
    | RemoveFromUnvalidated mid2 => simp at hf
    | RemoveFromValidated mid2 => simp at hf
    | PurgeBelowExpiry c => simp at hf
  · rintro ⟨src, size, ihash, hmem, hsrc⟩
    refine ⟨⟨size, mid, ihash⟩, ?_, rfl⟩
    rw [advertsOfChangeSet]
    exact List.mem_filterMap.mpr ⟨_, hmem, by simp [hsrc]⟩

theorem apply_changes_adverts_iff_witness :
    exPool3.apply_changes [.MoveToValidated ⟨50, 1001⟩ 7 0 99] =
      some (exRes4, exPool4) ∧
    ((∃ ad ∈ exRes4.adverts, ad.id = (⟨50, 1001⟩ : IngressMessageId)) ↔
      ∃ src size ihash,
        ChangeAction.MoveToValidated ⟨50, 1001⟩ src size ihash ∈
          [ChangeAction.MoveToValidated ⟨50, 1001⟩ 7 0 99] ∧
        src = exPool3.node_id) :=
  ⟨by decide,
   apply_changes_adverts_iff exPool3 [.MoveToValidated ⟨50, 1001⟩ 7 0 99]
     exRes4 exPool4 (by decide) ⟨50, 1001⟩⟩

/-! Part C5: select_validated is fair (ordered by insertion timestamp) -/

theorem keyLe_lo_iff (lo : Time) (p : IngressMessageId) :
    keyLe ⟨lo, 0⟩ p ↔ lo ≤ p.expiry := by
  constructor
  · rintro (h | h)
    · rcases h with h | ⟨he, _⟩
      · exact Nat.le_of_lt h
      · exact Nat.le_of_eq he
    · rw [← h]
  · intro h
    rcases Nat.lt_or_ge lo p.expiry with h1 | h1
    · exact Or.inl (Or.inl h1)
    · have he : lo = p.expiry := Nat.le_antisymm h (Nat.le_of_lt_succ (Nat.lt_succ_of_le h1))
      rcases Nat.eq_zero_or_pos p.hash with h2 | h2
      · refine Or.inr ?_
        cases p
        simp_all
      · exact Or.inl (Or.inr ⟨he, h2⟩)

theorem keyLe_hi_iff (hi : Time) (p : IngressMessageId)
    (hb : p.hash ≤ maxMessageIdHash) :
    keyLe p ⟨hi, maxMessageIdHash⟩ ↔ p.expiry ≤ hi := by
  constructor
  · rintro (h | h)
    · rcases h with h | ⟨he, _⟩
      · exact Nat.le_of_lt h
      · exact Nat.le_of_eq he
    · rw [h]
  · intro h
    rcases Nat.lt_or_ge p.expiry hi with h1 | h1
    · exact Or.inl (Or.inl h1)
    · have he : p.expiry = hi := Nat.le_antisymm h h1
      rcases Nat.lt_or_ge p.hash maxMessageIdHash with h2 | h2
      · exact Or.inl (Or.inr ⟨he, h2⟩)
      · have hh : p.hash = maxMessageIdHash := Nat.le_antisymm hb h2
        refine Or.inr ?_
        cases p
        simp_all

theorem range_eq_filter (s : IngressPoolSection T) (lo hi : Time)
    (hb : ∀ p ∈ s.artifacts, p.1.hash ≤ maxMessageIdHash) :
    s.get_all_by_expiry_range lo hi =
      (s.artifacts.filter
        (fun p => decide (lo ≤ p.1.expiry) && decide (p.1.expiry ≤ hi))).map
        Prod.snd := by
  rw [IngressPoolSection.get_all_by_expiry_range]
  by_cases hlohi : hi < lo
  · rw [if_pos hlohi]
    have hnil : s.artifacts.filter
        (fun p => decide (lo ≤ p.1.expiry) && decide (p.1.expiry ≤ hi)) = [] := by
      rw [List.filter_eq_nil_iff]
      intro p _
      simp only [Bool.and_eq_true, decide_eq_true_eq, not_and]
      intro h1 h2
      exact Nat.lt_irrefl lo (Nat.lt_of_le_of_lt (Nat.le_trans h1 h2) hlohi)
    rw [hnil]
    rfl
  · rw [if_neg hlohi]
    dsimp only
    congr 1
    apply List.filter_congr
    intro p hp
    rw [decide_eq_decide.mpr (keyLe_lo_iff lo p.1),
      decide_eq_decide.mpr (keyLe_hi_iff hi p.1 (hb p hp))]

theorem selectLoop_alwaysSelect (l : List ValidatedIngressArtifact) (s : Unit) :
    (selectLoop alwaysSelect s l).1 = l.map (fun a => a.msg.signed_ingress) := by
  induction l with
  | nil => rfl
  | cons a rest ih => simp [selectLoop, alwaysSelect, ih]

theorem timestamp_le_trans (a b c : ValidatedIngressArtifact)
    (h1 : decide (a.timestamp ≤ b.timestamp) = true)
    (h2 : decide (b.timestamp ≤ c.timestamp) = true) :
    decide (a.timestamp ≤ c.timestamp) = true :=
  decide_eq_true (Nat.le_trans (of_decide_eq_true h1) (of_decide_eq_true h2))

theorem timestamp_le_total (a b : ValidatedIngressArtifact) :
    (decide (a.timestamp ≤ b.timestamp) ||
      decide (b.timestamp ≤ a.timestamp)) = true := by
  rcases Nat.le_total a.timestamp b.timestamp with h | h <;> simp [h]

/-- C5: with the always-selecting selector, `select_validated` returns
exactly the validated messages whose key expiry lies in the inclusive
range, ordered by non-decreasing insertion timestamp (the re-sort is a
deterministic function of the pool state). -/
theorem select_validated_fairness (pool : IngressPoolImpl) (lo hi : Time)
    (hb : ∀ p ∈ pool.validated.artifacts, p.1.hash ≤ maxMessageIdHash) :
    ∃ arts : List ValidatedIngressArtifact,
      pool.select_validated lo hi alwaysSelect () =
        arts.map (fun a => a.msg.signed_ingress) ∧
      arts.Perm ((pool.validated.artifacts.filter
        (fun p => decide (lo ≤ p.1.expiry) && decide (p.1.expiry ≤ hi))).map
        Prod.snd) ∧
      arts.Pairwise (fun a b => a.timestamp ≤ b.timestamp) := by
  refine ⟨pool.sortedRangeArtifacts lo hi, ?_, ?_, ?_⟩
  · exact selectLoop_alwaysSelect _ _
  · have hperm := List.mergeSort_perm
      (pool.validated.get_all_by_expiry_range lo hi)
      (fun a b => decide (a.timestamp ≤ b.timestamp))
    rw [IngressPoolImpl.sortedRangeArtifacts]
    exact hperm.trans (by rw [range_eq_filter pool.validated lo hi hb])
  · have hsorted := List.sorted_mergeSort timestamp_le_trans timestamp_le_total
      (pool.validated.get_all_by_expiry_range lo hi)
    exact hsorted.imp of_decide_eq_true

theorem select_validated_fairness_witness :
    (∀ p ∈ exPool5.validated.artifacts, p.1.hash ≤ maxMessageIdHash) ∧
    ∃ arts : List ValidatedIngressArtifact,
      exPool5.select_validated 10 50 alwaysSelect () =
        arts.map (fun a => a.msg.signed_ingress) ∧
      arts.Perm ((exPool5.validated.artifacts.filter
        (fun p => decide (10 ≤ p.1.expiry) && decide (p.1.expiry ≤ 50))).map
        Prod.snd) ∧
      arts.Pairwise (fun a b => a.timestamp ≤ b.timestamp) :=
  ⟨by decide, select_validated_fairness exPool5 10 50 (by decide)⟩

/-! Part C6: Abort stops the selection loop -/

theorem selectLoop_abort_of_split (f : σ → IngressPoolObject → σ × SelectResult)
    (pre post : List ValidatedIngressArtifact) (a : ValidatedIngressArtifact) :
    ∀ s0, noAbortThread f s0 pre = true →
      (f (threadState f s0 pre) a.msg).2 = SelectResult.Abort →
      selectLoop f s0 (pre ++ a :: post) =
        (collectedSel f s0 pre, pre.map (fun x => x.msg) ++ [a.msg],
         (f (threadState f s0 pre) a.msg).1) := by
  induction pre with
  | nil =>
    intro s0 hpre habort
    rw [threadState] at habort ⊢
    cases hfa : f s0 a.msg with
    | mk s1 r =>
      rw [hfa] at habort
      subst habort
      simp [selectLoop, hfa, collectedSel]
  | cons b pre ih =>
    intro s0 hpre habort
    cases hfb : f s0 b.msg with
    | mk s1 r =>
      rw [noAbortThread, hfb] at hpre
      simp only [Bool.and_eq_true, decide_eq_true_eq] at hpre
      obtain ⟨hne, hrest⟩ := hpre
      rw [threadState, hfb] at habort
      have hloop := ih s1 hrest habort
      cases r with
      | Selected msg =>
        rw [List.cons_append]
        rw [show selectLoop f s0 (b :: (pre ++ a :: post)) =
          (msg :: (selectLoop f s1 (pre ++ a :: post)).1,
           b.msg :: (selectLoop f s1 (pre ++ a :: post)).2.1,
           (selectLoop f s1 (pre ++ a :: post)).2.2) by
            simp [selectLoop, hfb]]
        rw [hloop]
        rw [show collectedSel f s0 (b :: pre) =
          msg :: collectedSel f s1 pre by simp [collectedSel, hfb]]
        rw [show threadState f s0 (b :: pre) = threadState f s1 pre by
          rw [threadState, hfb]]
        simp
      | Skip =>
        rw [List.cons_append]
        rw [show selectLoop f s0 (b :: (pre ++ a :: post)) =
          ((selectLoop f s1 (pre ++ a :: post)).1,
           b.msg :: (selectLoop f s1 (pre ++ a :: post)).2.1,
           (selectLoop f s1 (pre ++ a :: post)).2.2) by
            simp [selectLoop, hfb]]
        rw [hloop]
        rw [show collectedSel f s0 (b :: pre) = collectedSel f s1 pre by
          simp [collectedSel, hfb]]
        rw [show threadState f s0 (b :: pre) = threadState f s1 pre by
          rw [threadState, hfb]]
        simp
      | Abort => exact absurd rfl hne

/-- C6: if the selector answers `Abort` on the artifact after the no-abort
prefix `pre` of the sorted range scan, then `select_validated` returns
exactly the messages selected within `pre` (in selection order), and the
selector is invoked on exactly `pre` and the aborting artifact — nothing
after it. -/
theorem select_abort_prefix {σ : Type} (pool : IngressPoolImpl) (lo hi : Time)
    (f : σ → IngressPoolObject → σ × SelectResult) (s0 : σ)
    (pre post : List ValidatedIngressArtifact) (a : ValidatedIngressArtifact)
    (hsplit : pool.sortedRangeArtifacts lo hi = pre ++ a :: post)
    (hpre : noAbortThread f s0 pre = true)
    (habort : (f (threadState f s0 pre) a.msg).2 = SelectResult.Abort) :
    pool.select_validated lo hi f s0 = collectedSel f s0 pre ∧
    (selectLoop f s0 (pool.sortedRangeArtifacts lo hi)).2.1 =
      pre.map (fun x => x.msg) ++ [a.msg] := by
  have h := selectLoop_abort_of_split f pre post a s0 hpre habort
  constructor
  · rw [IngressPoolImpl.select_validated, hsplit, h]
  · rw [hsplit, h]

theorem select_abort_prefix_witness :
    exPool5.sortedRangeArtifacts 10 50 =
      [exVal 0 1 30 10, exVal 2 2 50 10] ++ exVal 1 3 40 10 ::
        [exVal 4 4 20 10, exVal 3 5 10 10] ∧
    noAbortThread exSel6 0 [exVal 0 1 30 10, exVal 2 2 50 10] = true ∧
    (exSel6 (threadState exSel6 0 [exVal 0 1 30 10, exVal 2 2 50 10])
        (exVal 1 3 40 10).msg).2 = SelectResult.Abort ∧
    (exPool5.select_validated 10 50 exSel6 0 =
       collectedSel exSel6 0 [exVal 0 1 30 10, exVal 2 2 50 10] ∧
     (selectLoop exSel6 0 (exPool5.sortedRangeArtifacts 10 50)).2.1 =
       [exVal 0 1 30 10, exVal 2 2 50 10].map (fun x => x.msg) ++
         [(exVal 1 3 40 10).msg]) := by
  have hsplit : exPool5.sortedRangeArtifacts 10 50 =
      [exVal 0 1 30 10, exVal 2 2 50 10] ++ exVal 1 3 40 10 ::
        [exVal 4 4 20 10, exVal 3 5 10 10] := by
    rw [IngressPoolImpl.sortedRangeArtifacts]
    rw [show exPool5.validated.get_all_by_expiry_range 10 50 =
      [exVal 3 5 10 10, exVal 4 4 20 10, exVal 0 1 30 10, exVal 1 3 40 10,
       exVal 2 2 50 10] from by decide]
    simp [List.mergeSort, List.merge, exVal, exMsg]
  exact ⟨hsplit, by decide, by decide,
    select_abort_prefix exPool5 10 50 exSel6 0
      [exVal 0 1 30 10, exVal 2 2 50 10]
      [exVal 4 4 20 10, exVal 3 5 10 10] (exVal 1 3 40 10)
      hsplit (by decide) (by decide)⟩

/-! Part C7: the throttling predicate -/

/-- C7: `exceeds_threshold` is true exactly when the combined entry count
reaches the count cap or the combined cached byte total reaches the byte
cap. -/
theorem exceeds_threshold_iff (pool : IngressPoolImpl) :
    pool.exceeds_threshold = true ↔
      (pool.ingress_pool_max_count ≤
         pool.validated.size + pool.unvalidated.size ∨
       pool.ingress_pool_max_bytes ≤
         pool.validated.count_bytes + pool.unvalidated.count_bytes) := by
  simp [IngressPoolImpl.exceeds_threshold]

/-! Part C8: the produced priority function -/

/-- C8: a priority function produced while the pool exceeded its threshold
answers `Drop` on every call regardless of the call-time clock (the
decision is frozen in the closure, which no longer reads the pool);
otherwise each call reads the clock anew and answers `Later` exactly when
the id's expiry lies in the window from now to now plus the TTL, `Drop`
otherwise. -/
theorem priority_function_spec (pool : IngressPoolImpl)
    (ingress_id : IngressMessageId) (now : Time) :
    (pool.exceeds_threshold = true →
      (get_priority_function pool).call ingress_id now = Priority.Drop) ∧
    (pool.exceeds_threshold = false →
      (get_priority_function pool).call ingress_id now =
        if now ≤ ingress_id.expiry ∧
            ingress_id.expiry ≤ now + MAX_INGRESS_TTL
        then Priority.Later else Priority.Drop) := by
  constructor
  · intro h
    simp [get_priority_function, h, PriorityClosure.call]
  · intro h
    simp [get_priority_function, h, PriorityClosure.call]

theorem priority_function_spec_witness :
    (get_priority_function exPoolFull).call ⟨100, 0⟩ 50 = Priority.Drop ∧
    (get_priority_function exPool5).call ⟨100, 0⟩ 50 = Priority.Later := by
  constructor
  · exact (priority_function_spec exPoolFull ⟨100, 0⟩ 50).1 (by decide)
  · have h := (priority_function_spec exPool5 ⟨100, 0⟩ 50).2 (by decide)
    rw [if_pos (by decide)] at h
    exact h

/-! Part C9: MoveToValidated on an absent id faults without touching state -/

theorem applyChangeAction_absent_none (pool : IngressPoolImpl)
    (mid : IngressMessageId) (src : NodeId) (size ihash : Nat)
    (habs : pool.unvalidated.get mid = none)
    (ad : List Advert) (pu : List IngressMessageId) :
    applyChangeAction pool ad pu (.MoveToValidated mid src size ihash) =
      none := by
  have hl : mapLookup mid pool.unvalidated.artifacts = none := habs
  simp [applyChangeAction, IngressPoolImpl.remove_unvalidated,
    remove_eq_none hl]

theorem applyLoop_none_of_absent (cs : ChangeSet) :
    ∀ (pool : IngressPoolImpl) (ad : List Advert) (pu : List IngressMessageId)
      (mid : IngressMessageId) (src : NodeId) (size ihash : Nat),
      mapLookup mid pool.unvalidated.artifacts = none →
      ChangeAction.MoveToValidated mid src size ihash ∈ cs →
      applyLoop pool ad pu cs = none := by
  induction cs with
  | nil =>
    intro pool ad pu mid src size ihash habs hmem
    exact absurd hmem (List.not_mem_nil _)
  | cons a rest ih =>
    intro pool ad pu mid src size ihash habs hmem
    rcases List.mem_cons.mp hmem with heq | hmem'
    · rw [applyLoop, ← heq,
        applyChangeAction_absent_none pool mid src size ihash habs ad pu]
    · rw [applyLoop]
      cases hstep : applyChangeAction pool ad pu a with
      | none => rfl
      | some x =>
        obtain ⟨p1, a1, u1⟩ := x
        exact ih p1 a1 u1 mid src size ihash
          (mapLookup_sublist (applyChangeAction_some_props hstep).2.2 habs)
          hmem'

/-- C9: when `id` is absent from the unvalidated section, executing a
`MoveToValidated(id, …)` action produces no successor state at all (in
particular no validated insert occurs), and applying any change set that
holds such an action makes `apply_changes` fault (return abnormally). -/
theorem move_to_validated_absent_faults (pool : IngressPoolImpl)
    (cs : ChangeSet) (mid : IngressMessageId) (src : NodeId)
    (size ihash : Nat)
    (habs : pool.unvalidated.get mid = none)
    (hmem : ChangeAction.MoveToValidated mid src size ihash ∈ cs) :
    (∀ (ad : List Advert) (pu : List IngressMessageId),
      applyChangeAction pool ad pu (.MoveToValidated mid src size ihash) =
        none) ∧
    pool.apply_changes cs = none := by
  refine ⟨fun ad pu =>
    applyChangeAction_absent_none pool mid src size ihash habs ad pu, ?_⟩
  rw [IngressPoolImpl.apply_changes,
    applyLoop_none_of_absent cs pool [] [] mid src size ihash habs hmem]

theorem move_to_validated_absent_faults_witness :
    exPool5.unvalidated.get ⟨5, 5⟩ = none ∧
    ChangeAction.MoveToValidated ⟨5, 5⟩ 7 0 0 ∈
      [ChangeAction.MoveToValidated ⟨5, 5⟩ 7 0 0] ∧
    ((∀ (ad : List Advert) (pu : List IngressMessageId),
      applyChangeAction exPool5 ad pu (.MoveToValidated ⟨5, 5⟩ 7 0 0) =
        none) ∧
     exPool5.apply_changes [.MoveToValidated ⟨5, 5⟩ 7 0 0] = none) :=
  ⟨by decide, by simp,
   move_to_validated_absent_faults exPool5 [.MoveToValidated ⟨5, 5⟩ 7 0 0]
     ⟨5, 5⟩ 7 0 0 (by decide) (by simp)⟩

/-! Part C10: MutablePool::remove only touches the unvalidated section -/

/-- C10: `MutablePool::remove` leaves the validated section entirely
unchanged for every pool state and id, even when the validated section
holds an entry for the id. -/
theorem remove_only_touches_unvalidated (pool : IngressPoolImpl)
    (id : IngressMessageId) : (pool.remove id).validated = pool.validated :=
  rfl

